import Mathlib

/-!
Verification development for `scripts/update-employees.ts`, a batch pipeline
that cleans, validates, batch-upserts and summarizes employee records.

JavaScript numbers are modelled as exact rationals (`ℚ`); machine floating
point rounding is not modelled.  Strings are Lean `String`s; `undefined` is
`Option.none`; nullable columns are `Option` values.  The Prisma store is an
external collaborator (its `schema.prisma` is not part of the sources), so the
store semantics are modelled from the spec's store contract: a list of rows
with `email` and `employeeNum` each independently unique, mutated only through
upsert-by-unique-key requests, submitted in all-or-nothing batches.
-/

namespace UpdateEmployees

/-- JS value that may populate the `hoursWorked` input field
(`number | string | null` in the TS `Row` type). -/
inductive NumStrNull where
  | num (n : ℚ)
  | str (s : String)
  | null
deriving DecidableEq, Repr

/-- JS value that may populate the `active` input field
(`boolean | string | null` in the TS `Row` type). -/
inductive BoolStrNull where
  | bool (b : Bool)
  | str (s : String)
  | null
deriving DecidableEq, Repr

/-- JS whitespace for `String.prototype.trim`, restricted to the ASCII
whitespace characters (the exotic Unicode space classes are not modelled). -/
def jsWhite (c : Char) : Bool :=
  c = ' ' || c = '\t' || c = '\n' || c = '\r' || c = '\x0b' || c = '\x0c'

/-- Model of the JS builtin `trim()`: strip leading and trailing
whitespace. -/
def jsTrim (s : String) : String :=
  String.mk (((s.data.dropWhile jsWhite).reverse.dropWhile jsWhite).reverse)

/-- ASCII lowercasing of one character (JS `toLowerCase()` restricted to the
ASCII range; locale-specific case mappings are not modelled). -/
def lowerChar (c : Char) : Char :=
  if 'A' ≤ c ∧ c ≤ 'Z' then Char.ofNat (c.toNat + 32) else c

/-- Model of the JS builtin `toLowerCase()`. -/
def jsToLower (s : String) : String :=
  String.mk (s.data.map lowerChar)

/-- `Math.round(q * 100) / 100` from the script: rounding to 2 decimal
places, halves rounded toward positive infinity (JS `Math.round`). -/
def round2 (q : ℚ) : ℚ :=
  ((Int.floor (q * 100 + 1/2) : ℤ) : ℚ) / 100

/-- Value of a list of decimal digit characters. -/
def decVal (l : List Char) : ℕ :=
  l.foldl (fun a c => 10 * a + (c.toNat - 48)) 0

/-- Digit value of `c` in base `b` (letters for bases above 10), `none` if
`c` is not a digit of that base. -/
def radixDigit (b : ℕ) (c : Char) : Option ℕ :=
  let v :=
    if c.isDigit then c.toNat - 48
    else if 'a' ≤ c ∧ c ≤ 'z' then c.toNat - 87
    else if 'A' ≤ c ∧ c ≤ 'Z' then c.toNat - 55
    else 99
  if v < b then some v else none

/-- Parse a non-empty all-digits string in base `b` (the part after `0x`,
`0o`, `0b` in a JS numeric literal). -/
def parseRadix (b : ℕ) (cs : List Char) : Option ℚ :=
  if cs = [] then none
  else if cs.all (fun c => (radixDigit b c).isSome) then
    some ((cs.foldl (fun a c => b * a + (radixDigit b c).getD 0) 0 : ℕ) : ℚ)
  else none

/-- Parse the decimal mantissa `digits [. digits]` or `. digits` of a JS
number literal; returns the value and the unconsumed rest. -/
def parseMantissa (cs : List Char) : Option (ℚ × List Char) :=
  let ip := cs.span Char.isDigit
  match ip.2 with
  | '.' :: r2 =>
    let fp := r2.span Char.isDigit
    if ip.1.isEmpty && fp.1.isEmpty then none
    else some ((decVal ip.1 : ℚ) + (decVal fp.1 : ℚ) / (10 : ℚ) ^ fp.1.length, fp.2)
  | _ => if ip.1.isEmpty then none else some ((decVal ip.1 : ℚ), ip.2)

/-- Parse the optional exponent part `e[+-]digits` of a JS number literal,
which must consume the whole rest of the string. -/
def parseExpPart : List Char → Option ℤ
  | [] => some 0
  | c :: r1 =>
    if c = 'e' ∨ c = 'E' then
      let sr : Bool × List Char :=
        match r1 with
        | '+' :: t => (false, t)
        | '-' :: t => (true, t)
        | t => (false, t)
      let ds := sr.2.span Char.isDigit
      if ds.1.isEmpty ∨ ¬ ds.2.isEmpty then none
      else some (if sr.1 then -(decVal ds.1 : ℤ) else (decVal ds.1 : ℤ))
    else none

/-- Model of the JS builtin `Number()` applied to a string, restricted to the
finite results: whitespace is trimmed, the empty string is `0`, decimal
literals (optional sign, optional fraction, optional exponent) and unsigned
radix literals (`0x`, `0o`, `0b`) are parsed; `none` stands for any
non-finite result (`NaN`, `±Infinity`), which `toFloat2` rejects uniformly
via its `Number.isFinite` guard. -/
def jsNumber (s : String) : Option ℚ :=
  match (jsTrim s).data with
  | [] => some 0
  | '0' :: 'x' :: rest => parseRadix 16 rest
  | '0' :: 'X' :: rest => parseRadix 16 rest
  | '0' :: 'o' :: rest => parseRadix 8 rest
  | '0' :: 'O' :: rest => parseRadix 8 rest
  | '0' :: 'b' :: rest => parseRadix 2 rest
  | '0' :: 'B' :: rest => parseRadix 2 rest
  | cs =>
    let sr : Bool × List Char :=
      match cs with
      | '+' :: t => (false, t)
      | '-' :: t => (true, t)
      | t => (false, t)
    if sr.2 = "Infinity".toList then none
    else
      match parseMantissa sr.2 with
      | none => none
      | some (m, r) =>
        match parseExpPart r with
        | none => none
        | some e => some ((if sr.1 then -m else m) * (10 : ℚ) ^ e)

/-- `toBool` from the script: `null`/`undefined`/`''` give `undefined`;
booleans pass through; otherwise the string form is trimmed, lowercased and
matched against the accepted true/false word lists. -/
def toBool (v : Option BoolStrNull) : Option Bool :=
  match v with
  | none => none
  | some .null => none
  | some (.bool b) => some b
  | some (.str s) =>
    if s = "" then none
    else
      let t := jsToLower (jsTrim s)
      if ["true", "1", "yes", "y"].contains t then some true
      else if ["false", "0", "no", "n"].contains t then some false
      else none

/-- `toFloat2` from the script: `null`/`undefined`/`''` give `undefined`;
otherwise `Number(v)` is taken and, when finite, rounded to 2 decimals. -/
def toFloat2 (v : Option NumStrNull) : Option ℚ :=
  match v with
  | none => none
  | some .null => none
  | some (.num n) => some (round2 n)
  | some (.str s) => if s = "" then none else (jsNumber s).map round2

/-- The TS `Row` input type: every field optional, `department`/`role` also
nullable, `hoursWorked` and `active` loosely typed. -/
structure Row where
  email : Option String := none
  employeeNum : Option String := none
  firstName : Option String := none
  lastName : Option String := none
  department : Option (Option String) := none
  role : Option (Option String) := none
  hoursWorked : Option NumStrNull := none
  active : Option BoolStrNull := none
deriving DecidableEq, Repr

/-- Return type of `clean`: the normalized record. -/
structure Cleaned where
  email : Option String
  employeeNum : Option String
  firstName : Option String
  lastName : Option String
  department : Option String
  role : String
  hoursWorked : ℚ
  active : Bool
deriving DecidableEq, Repr

/-- JS truthiness of a possibly-undefined string: defined and non-empty. -/
def strTruthy : Option String → Bool
  | none => false
  | some s => s != ""

/-- `clean` from the script: trims the string fields, lowercases `email`,
maps empty-after-trim `department` to `null`, defaults `role` to `"Staff"`,
`hoursWorked` to `0` and `active` to `true`. -/
def clean (r : Row) : Cleaned where
  email := r.email.map (fun s => jsToLower (jsTrim s))
  employeeNum := r.employeeNum.map jsTrim
  firstName := r.firstName.map jsTrim
  lastName := r.lastName.map jsTrim
  department :=
    match r.department with
    | some (some s) => if jsTrim s = "" then none else some (jsTrim s)
    | _ => none
  role :=
    match r.role with
    | some (some s) => if jsTrim s = "" then "Staff" else jsTrim s
    | _ => "Staff"
  hoursWorked := (toFloat2 r.hoursWorked).getD 0
  active := (toBool r.active).getD true

/-- `validate` from the script: the list of row-rule violation messages. -/
def validate (c : Cleaned) : List String :=
  (if !strTruthy c.email && !strTruthy c.employeeNum then
    ["Missing unique key (email or employeeNum)."] else [])
  ++ (if !strTruthy c.firstName then ["Missing firstName."] else [])
  ++ (if !strTruthy c.lastName then ["Missing lastName."] else [])
  ++ (if c.hoursWorked < 0 then ["hoursWorked cannot be negative."] else [])
  ++ (if c.hoursWorked > 24 then ["hoursWorked per record > 24 is not allowed."] else [])

/-- One rejected row: original input index and the joined reason string. -/
structure RejectionRecord where
  index : ℕ
  error : String
deriving DecidableEq, Repr

/-- The clean-and-validate loop of `main`, carrying the running input index:
valid rows are collected in order, invalid rows become `RejectionRecord`s. -/
def processAux : ℕ → List Row → List Cleaned × List RejectionRecord
  | _, [] => ([], [])
  | i, r :: rs =>
    let c := clean r
    let errs := validate c
    let rest := processAux (i + 1) rs
    if errs.isEmpty then (c :: rest.1, rest.2)
    else (rest.1, ⟨i, String.intercalate "; " errs⟩ :: rest.2)

/-- Steps 2 and 3 of `main`: partition the raw rows into cleaned-and-accepted
records and indexed rejections. -/
def processRows (rows : List Row) : List Cleaned × List RejectionRecord :=
  processAux 0 rows

/-- Clamp a JS `Array.prototype.slice` index to the array: negative indices
count from the end, indices past the end are clamped. -/
def jsSliceIdx (len : ℕ) (x : ℤ) : ℕ :=
  if x < 0 then ((len : ℤ) + x).toNat else min x.toNat len

/-- JS `arr.slice(s, e)`: the elements from clamped index `s` up to, not
including, clamped index `e`. -/
def jsSlice {α : Type} (arr : List α) (s e : ℤ) : List α :=
  (arr.take (jsSliceIdx arr.length e)).drop (jsSliceIdx arr.length s)

/-- State of the `for (let i = 0; i < arr.length; i += size)` loop of
`toBatches`: the loop index and the accumulated output. -/
structure BatchState (α : Type) where
  i : ℤ
  out : List (List α)
deriving DecidableEq, Repr

/-- One body execution of the `toBatches` loop:
`out.push(arr.slice(i, i + size)); i += size`. -/
def batchStep {α : Type} (arr : List α) (size : ℤ) (s : BatchState α) : BatchState α :=
  ⟨s.i + size, s.out ++ [jsSlice arr s.i (s.i + size)]⟩

/-- One guarded step of the `toBatches` loop: run the body if the loop
condition `i < arr.length` holds, otherwise leave the state unchanged. -/
def batchStepG {α : Type} (arr : List α) (size : ℤ) (s : BatchState α) : BatchState α :=
  if s.i < (arr.length : ℤ) then batchStep arr size s else s

/-- `toBatches` from the script, as the guarded loop run for `arr.length`
steps (enough iterations whenever `size ≥ 1`; the loop does not terminate on
its own for `size ≤ 0` and a non-empty array, see the termination theorem). -/
def toBatches {α : Type} (arr : List α) (size : ℤ) : List (List α) :=
  ((batchStepG arr size)^[arr.length] ⟨0, []⟩).out

/-- Recursive chunking of a list into pieces of size `sz + 1`; the closed
form that `toBatches` computes for positive sizes. -/
def chunksAux {α : Type} (sz : ℕ) : List α → List (List α)
  | [] => []
  | a :: l => ((a :: l).take (sz + 1)) :: chunksAux sz ((a :: l).drop (sz + 1))
termination_by l => l.length
decreasing_by simp; omega

/-- Identity key used by `weeklySummary`: `r.email || r.employeeNum!`.
`none` models the JS `undefined` key used when both are absent. -/
def identityKey (c : Cleaned) : Option String :=
  if strTruthy c.email then c.email else c.employeeNum

/-- JS `Map.set` on an insertion-ordered association list: replace the value
in place if the key is present, else append the binding. -/
def mapSet (m : List (Option String × ℚ)) (k : Option String) (v : ℚ) :
    List (Option String × ℚ) :=
  match m with
  | [] => [(k, v)]
  | (k2, v2) :: rest => if k2 = k then (k, v) :: rest else (k2, v2) :: mapSet rest k v

/-- JS `map.get(k) ?? d` on the association list. -/
def mapGetD (m : List (Option String × ℚ)) (k : Option String) (d : ℚ) : ℚ :=
  match m with
  | [] => d
  | (k2, v) :: rest => if k2 = k then v else mapGetD rest k d

/-- The accumulation loop of `weeklySummary`:
`map.set(key, (map.get(key) ?? 0) + r.hoursWorked)` over the rows. -/
def accumRows : List Cleaned → List (Option String × ℚ) → List (Option String × ℚ)
  | [], m => m
  | r :: rs, m =>
    accumRows rs (mapSet m (identityKey r) (mapGetD m (identityKey r) 0 + r.hoursWorked))

/-- One row of the weekly summary report. -/
structure WeeklyEntry where
  key : Option String
  total_hours : ℚ
  expected_hours : ℚ
  delta : ℚ
  status : String
deriving DecidableEq, Repr

/-- The entry built by `weeklySummary` for one accumulated key/total pair:
status `FAIL` for a zero total, `WARN` strictly between `0` and the expected
hours, otherwise `PASS`; hours and delta rounded to 2 decimals. -/
def mkEntry (expected : ℚ) (kv : Option String × ℚ) : WeeklyEntry where
  key := kv.1
  total_hours := round2 kv.2
  expected_hours := expected
  delta := round2 (kv.2 - expected)
  status :=
    if kv.2 = 0 then "FAIL"
    else if 0 < kv.2 ∧ kv.2 < expected then "WARN"
    else "PASS"

/-- `weeklySummary` from the script (the CSV serialization side effect is not
modelled): group by identity key, then classify each total. -/
def weeklySummary (expected : ℚ) (rows : List Cleaned) : List WeeklyEntry :=
  (accumRows rows []).map (mkEntry expected)

/-- Stored employee row.  Modelled from the spec: the `schema.prisma` file is
not among the sources, so the row shape follows the spec's store contract —
fields exactly `email`, `employeeNum`, `firstName`, `lastName`, `department`,
`role`, `hoursWorked`, `active`, with `email` required and `employeeNum` and
`department` nullable, `email` and `employeeNum` each independently unique. -/
structure Employee where
  email : String
  employeeNum : Option String
  firstName : String
  lastName : String
  department : Option String
  role : String
  hoursWorked : ℚ
  active : Bool
deriving DecidableEq, Repr

/-- True when some row other than the one at index `i` already holds email
`e` (would violate the store's unique key on `email`). -/
def emailTakenExcept (s : List Employee) (i : ℕ) (e : String) : Bool :=
  s.enum.any (fun p => p.1 != i && p.2.email == e)

/-- True when some row other than the one at index `i` already holds
employee number `v` (would violate the unique key on `employeeNum`). -/
def numTakenExcept (s : List Employee) (i : ℕ) (v : String) : Bool :=
  s.enum.any (fun p => p.1 != i && p.2.employeeNum == some v)

/-- The field updates common to both upsert branches of `main`: an
`undefined` value (`none` name fields) is skipped by the store, everything
else overwrites. -/
def updCommon (row : Employee) (c : Cleaned) : Employee where
  email := row.email
  employeeNum := row.employeeNum
  firstName := c.firstName.getD row.firstName
  lastName := c.lastName.getD row.lastName
  department := c.department
  role := c.role
  hoursWorked := c.hoursWorked
  active := c.active

/-- One `prisma.employee.upsert` call from `main`.  Modelled from the spec:
the store applies upsert-by-unique-key semantics — look the row up by the
chosen key, update it if found (skipping `undefined`-valued columns, since
`?? undefined` makes them absent), otherwise create it; `none` signals a
store error (unique-key violation, a `create` missing a required name
column, or a `where` on an `undefined` key). -/
def applyOne (s : List Employee) (c : Cleaned) : Option (List Employee) :=
  if strTruthy c.email then
    let e := c.email.getD ""
    match s.findIdx? (fun row => row.email == e) with
    | some i =>
      match s[i]? with
      | some row =>
        let row2 := { updCommon row c with
          employeeNum :=
            match c.employeeNum with
            | some v => some v
            | none => row.employeeNum }
        match c.employeeNum with
        | some v => if numTakenExcept s i v then none else some (s.set i row2)
        | none => some (s.set i row2)
      | none => none
    | none =>
      if c.firstName.isNone || c.lastName.isNone then none
      else
        match c.employeeNum with
        | some v =>
          if numTakenExcept s s.length v then none
          else some (s ++ [⟨e, some v, c.firstName.getD "", c.lastName.getD "",
            c.department, c.role, c.hoursWorked, c.active⟩])
        | none => some (s ++ [⟨e, none, c.firstName.getD "", c.lastName.getD "",
          c.department, c.role, c.hoursWorked, c.active⟩])
  else
    match c.employeeNum with
    | none => none
    | some k =>
      match s.findIdx? (fun row => row.employeeNum == some k) with
      | some i =>
        match s[i]? with
        | some row =>
          let row2 := { updCommon row c with
            email :=
              match c.email with
              | some e2 => e2
              | none => row.email }
          match c.email with
          | some e2 => if emailTakenExcept s i e2 then none else some (s.set i row2)
          | none => some (s.set i row2)
        | none => none
      | none =>
        if c.firstName.isNone || c.lastName.isNone then none
        else
          let em := c.email.getD (k ++ "@placeholder.local")
          if emailTakenExcept s s.length em then none
          else some (s ++ [⟨em, some k, c.firstName.getD "", c.lastName.getD "",
            c.department, c.role, c.hoursWorked, c.active⟩])

/-- One `prisma.$transaction` batch: all upserts in order, all-or-nothing
(the caller keeps the pre-batch store when any operation fails). -/
def applyBatch (s : List Employee) : List Cleaned → Option (List Employee)
  | [] => some s
  | c :: cs =>
    match applyOne s c with
    | some s2 => applyBatch s2 cs
    | none => none

/-- The batch submission loop of `main`: batches strictly in order, the
success counter incremented by the batch length after each commit, a failed
batch keeping its pre-batch state and stopping all later batches. -/
def runBatches (s : List Employee) (succ : ℕ) :
    List (List Cleaned) → List Employee × ℕ × Bool
  | [] => (s, succ, true)
  | b :: bs =>
    match applyBatch s b with
    | some s2 => runBatches s2 (succ + b.length) bs
    | none => (s, succ, false)

/-- Outcome of one run of `main` (after loading and profiling): final store,
reported success count, whether the run aborted on a store error, the
rejection records, and the weekly summary entries (`none` when the run
aborted before the summarizer). -/
structure RunResult where
  store : List Employee
  success : ℕ
  aborted : Bool
  rejections : List RejectionRecord
  entries : Option (List WeeklyEntry)
deriving DecidableEq, Repr

/-- Steps 2-5 of `main`: clean and validate every row, skip the upsert stage
entirely when `dry` is set or no record was accepted, otherwise submit the
accepted records in batches; the summarizer runs over the accepted records
unless a batch failure aborted the run. -/
def runPipeline (dry : Bool) (batchSize : ℤ) (expected : ℚ) (s0 : List Employee)
    (rows : List Row) : RunResult :=
  let p := processRows rows
  if !dry && !p.1.isEmpty then
    match runBatches s0 0 (toBatches p.1 batchSize) with
    | (s1, succ, true) => ⟨s1, succ, false, p.2, some (weeklySummary expected p.1)⟩
    | (s1, succ, false) => ⟨s1, succ, true, p.2, none⟩
  else ⟨s0, 0, false, p.2, some (weeklySummary expected p.1)⟩

/-- Keys of the accumulation map, in insertion order. -/
def mapKeys (m : List (Option String × ℚ)) : List (Option String) :=
  m.map Prod.fst

/-- Total `hoursWorked` of the rows whose identity key is `k`. -/
def sumKey (rows : List Cleaned) (k : Option String) : ℚ :=
  ((rows.filter fun r => identityKey r == k).map Cleaned.hoursWorked).sum

/-- A rational is a whole number of hundredths (the shape of every
`Math.round(x * 100) / 100` result and of sums of such results). -/
def IsCents (q : ℚ) : Prop :=
  (q * 100).den = 1

/-- First raw row of the idempotence counterexample: keyed by email only. -/
def idemRaw1 : Row :=
  { email := some "x@a.com", firstName := some "F", lastName := some "L",
    hoursWorked := some (.num 1) }

/-- Second raw row of the idempotence counterexample: same email, now also
carrying employee number E1. -/
def idemRaw2 : Row :=
  { email := some "x@a.com", employeeNum := some "E1", firstName := some "F",
    lastName := some "L", hoursWorked := some (.num 2) }

/-- Third raw row of the idempotence counterexample: whitespace-only email
(truthy-empty after trim, so it validates via E1 but upserts on the
employeeNum path and blanks the stored email). -/
def idemRaw3 : Row :=
  { email := some "  ", employeeNum := some "E1", firstName := some "F",
    lastName := some "L", hoursWorked := some (.num 3) }

/-- The idempotence counterexample input file. -/
def idemRaws : List Row :=
  [idemRaw1, idemRaw2, idemRaw3]

/-- First run of the pipeline on the idempotence counterexample (batch size
1, expected hours 40, empty initial store). -/
def idemOnce : RunResult :=
  runPipeline false 1 40 [] idemRaws

/-- Second run of the pipeline on the unchanged input file, against the
store state the first run left behind. -/
def idemTwice : RunResult :=
  runPipeline false 1 40 idemOnce.store idemRaws

/-- Raw row whose email is whitespace-only: accepted thanks to its employee
number, but its cleaned email is the empty string, not `undefined`. -/
def c7raw : Row :=
  { email := some "  ", employeeNum := some "E1", firstName := some "Ann",
    lastName := some "Lee", hoursWorked := some (.num 5) }

/-- The cleaned form of `c7raw`: `email = some ""`. -/
def c7rec : Cleaned :=
  clean c7raw

/-- A store holding one row with employee number E1 and a real email. -/
def s7 : List Employee :=
  [⟨"old@x.com", some "E1", "Bob", "Old", none, "Staff", 1, true⟩]

/-- A store holding an employee that already owns employee number E1. -/
def c9store : List Employee :=
  [⟨"a@x.com", some "E1", "P", "Q", none, "Staff", 1, true⟩]

/-- An accepted raw row whose upsert must create a new email-keyed row
carrying the already-taken employee number E1. -/
def c9row : Row :=
  { email := some "b@y.com", employeeNum := some "E1", firstName := some "B",
    lastName := some "C", hoursWorked := some (.num 2) }

/-- An unremarkable accepted raw row (used to exercise a succeeding non-dry
run). -/
def okRaw : Row :=
  { email := some "g@x.com", firstName := some "G", lastName := some "H",
    hoursWorked := some (.num 1) }

/-- First record of the spec's summary scenario: `a@x.com`, 10 hours. -/
def scenA : Cleaned :=
  ⟨some "a@x.com", none, some "A", some "B", none, "Staff", 10, true⟩

/-- Second record of the spec's summary scenario: `a@x.com`, 15 hours. -/
def scenB : Cleaned :=
  ⟨some "a@x.com", none, some "A", some "B", none, "Staff", 15, true⟩

/-- Accepted rows totalling exactly 40 hours for key `p@x.com`, 39.99 hours
for key `q@x.com` and 0 hours for key `r@x.com`. -/
def boundaryRaws : List Row :=
  [ { email := some "p@x.com", firstName := some "A", lastName := some "B",
      hoursWorked := some (.num 20) },
    { email := some "p@x.com", firstName := some "A", lastName := some "B",
      hoursWorked := some (.num 20) },
    { email := some "q@x.com", firstName := some "A", lastName := some "B",
      hoursWorked := some (.num 20) },
    { email := some "q@x.com", firstName := some "A", lastName := some "B",
      hoursWorked := some (.str "19.99") },
    { email := some "r@x.com", firstName := some "A", lastName := some "B",
      hoursWorked := some (.num 0) } ]

/-- The cleaned boundary rows. -/
def boundaryRows : List Cleaned :=
  boundaryRaws.map clean

/-- Raw row exercising the normalization defaults: department trims to a
word, role trims to empty, hours are unparsable, active is a shouted yes. -/
def defaultsRow : Row :=
  { department := some (some "  Sales  "), role := some (some "  "),
    hoursWorked := some (.str "abc"), active := some (.str " YES ") }

/-- Raw row whose string fields are all whitespace-only. -/
def blankRow : Row :=
  { email := some "  ", firstName := some " ", lastName := some "   ",
    department := some (some " ") }

/-- Accepted record that lacks an email entirely (`undefined`): the
employeeNum upsert path must synthesize its placeholder address. -/
def numOnlyRec : Cleaned :=
  ⟨none, some "E9", some "A", some "B", none, "Staff", 2, true⟩

set_option maxRecDepth 8000

set_option allowUnsafeReducibility true

attribute [local semireducible] Rat.add Rat.mul Rat.inv Rat.sub Rat.div Rat.ofScientific

/-- C1: the batched upsert is not idempotent on the code.  All three rows of
`idemRaws` are accepted, the first run succeeds and leaves a single stored
row, yet replaying the identical input file commits a second row for
`x@a.com` in batch 1 (the stored email was blanked by the third record's
employeeNum-path update, so the email lookup misses and re-creates) and then
aborts batch 2 on the unique-employeeNum violation — the final store differs
from the single-run store and holds a duplicate row for the same logical
employee, contradicting the code's own `idempotent by unique key` comment. -/
theorem upsert_not_idempotent :
    (processRows idemRaws).2 = [] ∧
    (processRows idemRaws).1.length = 3 ∧
    idemOnce.aborted = false ∧
    idemOnce.success = 3 ∧
    idemOnce.store.length = 1 ∧
    idemTwice.store ≠ idemOnce.store ∧
    idemTwice.store.length = 2 := by
  decide

/-- C7 counterexample: `c7rec` is an accepted record (its email is present
but empty after trimming), its upsert takes the employeeNum path, and there
the update overwrites the stored email `old@x.com` with the empty string,
while the create path stores the empty email instead of synthesizing the
`E1@placeholder.local` placeholder — refuting the claim that on the
employeeNum path a placeholder is used on creation and an update never
overwrites an existing stored email. -/
theorem upsert_blank_email_overwrites :
    c7rec = clean c7raw ∧
    validate c7rec = [] ∧
    c7rec.email = some "" ∧
    applyOne s7 c7rec =
      some [⟨"", some "E1", "Ann", "Lee", none, "Staff", 5, true⟩] ∧
    applyOne [] c7rec =
      some [⟨"", some "E1", "Ann", "Lee", none, "Staff", 5, true⟩] := by
  decide

/-- C9 counterexample: with store `c9store` and the single accepted row
`c9row`, the non-dry run aborts on a unique-key violation before the
summarizer runs, so it reports no weekly entries, while the dry run over the
same input reports one — the summary output is not independent of the
dry-run flag. -/
theorem dry_run_entries_differ :
    (processRows [c9row]).2 = [] ∧
    (runPipeline false 100 40 c9store [c9row]).aborted = true ∧
    (runPipeline true 100 40 c9store [c9row]).entries ≠
      (runPipeline false 100 40 c9store [c9row]).entries := by
  decide

theorem isCents_iff {q : ℚ} : IsCents q ↔ ∃ n : ℤ, q * 100 = (n : ℚ) := by
  constructor
  · intro h
    exact ⟨(q * 100).num, ((Rat.den_eq_one_iff (q * 100)).mp h).symm⟩
  · rintro ⟨n, hn⟩
    unfold IsCents
    rw [hn]
    exact Rat.den_intCast n

theorem isCents_zero : IsCents 0 := by
  rw [isCents_iff]
  exact ⟨0, by norm_num⟩

theorem isCents_add {a b : ℚ} (ha : IsCents a) (hb : IsCents b) : IsCents (a + b) := by
  rw [isCents_iff] at ha hb ⊢
  obtain ⟨m, hm⟩ := ha
  obtain ⟨n, hn⟩ := hb
  exact ⟨m + n, by push_cast [← hm, ← hn]; ring⟩

theorem isCents_round2 (q : ℚ) : IsCents (round2 q) := by
  rw [isCents_iff]
  refine ⟨Int.floor (q * 100 + 1/2), ?_⟩
  unfold round2
  rw [div_mul_cancel₀]
  norm_num

theorem isCents_sum {l : List ℚ} (h : ∀ x ∈ l, IsCents x) : IsCents l.sum := by
  induction l with
  | nil => simpa using isCents_zero
  | cons a t ih =>
    rw [List.sum_cons]
    exact isCents_add (h a (List.mem_cons_self a t))
      (ih fun x hx => h x (List.mem_cons_of_mem a hx))

theorem round2_eq_self {q : ℚ} (h : IsCents q) : round2 q = q := by
  obtain ⟨n, hn⟩ := isCents_iff.mp h
  unfold round2
  rw [hn, Int.floor_int_add]
  have h2 : (Int.floor ((1:ℚ)/2) : ℤ) = 0 := by
    rw [Int.floor_eq_zero_iff]
    constructor <;> norm_num
  rw [h2, add_zero]
  rw [eq_comm, eq_div_iff (by norm_num : (100:ℚ) ≠ 0), hn]

theorem toFloat2_isCents {v : Option NumStrNull} {q : ℚ} (h : toFloat2 v = some q) :
    IsCents q := by
  match v with
  | none => simp [toFloat2] at h
  | some .null => simp [toFloat2] at h
  | some (.num n) =>
    simp only [toFloat2, Option.some.injEq] at h
    rw [← h]
    exact isCents_round2 n
  | some (.str s) =>
    simp only [toFloat2] at h
    split at h
    · exact absurd h (by simp)
    · obtain ⟨m, _, hm⟩ := Option.map_eq_some'.mp h
      rw [← hm]
      exact isCents_round2 m

theorem clean_hours_isCents (r : Row) : IsCents ((clean r).hoursWorked) := by
  show IsCents ((toFloat2 r.hoursWorked).getD 0)
  match h : toFloat2 r.hoursWorked with
  | none => simpa using isCents_zero
  | some q => simpa using toFloat2_isCents h

theorem validate_nil_iff (c : Cleaned) :
    validate c = [] ↔
      ((strTruthy c.email || strTruthy c.employeeNum) = true ∧
        strTruthy c.firstName = true ∧ strTruthy c.lastName = true ∧
        0 ≤ c.hoursWorked ∧ c.hoursWorked ≤ 24) := by
  unfold validate
  split_ifs with h1 h2 h3 h4 h5 <;>
    simp_all [not_lt, Bool.or_eq_true, Bool.and_eq_true, Bool.not_eq_true',
      Bool.not_eq_false]
  cases hE : strTruthy c.email
  · exact Or.inr (h1 hE)
  · exact Or.inl rfl

theorem mapGetD_set_self (m : List (Option String × ℚ)) (k : Option String) (v d : ℚ) :
    mapGetD (mapSet m k v) k d = v := by
  induction m with
  | nil => simp [mapSet, mapGetD]
  | cons p rest ih =>
    obtain ⟨k2, v2⟩ := p
    by_cases h : k2 = k <;> simp [mapSet, mapGetD, h, ih]

theorem mapGetD_set_ne (m : List (Option String × ℚ)) {k k2 : Option String} (v d : ℚ)
    (h : k2 ≠ k) : mapGetD (mapSet m k v) k2 d = mapGetD m k2 d := by
  induction m with
  | nil => simp [mapSet, mapGetD, h, Ne.symm h]
  | cons p rest ih =>
    obtain ⟨k3, v3⟩ := p
    by_cases h3 : k3 = k
    · subst h3
      simp [mapSet, mapGetD, h, Ne.symm h]
    · by_cases h2 : k3 = k2
      · simp [mapSet, mapGetD, h3, h2, h]
      · simp [mapSet, mapGetD, h3, h2, ih]

theorem mem_mapKeys_set (m : List (Option String × ℚ)) (k k2 : Option String) (v : ℚ) :
    k2 ∈ mapKeys (mapSet m k v) ↔ k2 ∈ mapKeys m ∨ k2 = k := by
  induction m with
  | nil => simp [mapSet, mapKeys]
  | cons p rest ih =>
    obtain ⟨k3, v3⟩ := p
    by_cases h : k3 = k
    · subst h
      simp [mapSet, mapKeys]
      tauto
    · simp only [mapSet, if_neg h]
      simp only [mapKeys, List.map_cons, List.mem_cons] at ih ⊢
      rw [ih]
      tauto

theorem nodup_mapKeys_set (m : List (Option String × ℚ)) (k : Option String) (v : ℚ)
    (h : (mapKeys m).Nodup) : (mapKeys (mapSet m k v)).Nodup := by
  induction m with
  | nil => simp [mapSet, mapKeys]
  | cons p rest ih =>
    obtain ⟨k3, v3⟩ := p
    simp only [mapKeys, List.map_cons, List.nodup_cons] at h
    by_cases h3 : k3 = k
    · subst h3
      simpa [mapSet, mapKeys, List.nodup_cons] using h
    · simp only [mapSet, if_neg h3, mapKeys, List.map_cons, List.nodup_cons]
      refine ⟨?_, ih h.2⟩
      rw [show (mapSet rest k v).map Prod.fst = mapKeys (mapSet rest k v) from rfl,
        mem_mapKeys_set]
      rintro (hm | hm)
      · exact h.1 hm
      · exact h3 hm

theorem accumRows_getD (rows : List Cleaned) :
    ∀ (m : List (Option String × ℚ)) (k : Option String),
      mapGetD (accumRows rows m) k 0 = mapGetD m k 0 + sumKey rows k := by
  induction rows with
  | nil => intro m k; simp [accumRows, sumKey]
  | cons r rs ih =>
    intro m k
    show mapGetD (accumRows rs (mapSet m (identityKey r) _)) k 0 = _
    rw [ih]
    by_cases h : identityKey r = k
    · subst h
      rw [mapGetD_set_self]
      have hs : sumKey (r :: rs) (identityKey r) =
          r.hoursWorked + sumKey rs (identityKey r) := by
        simp [sumKey, List.filter_cons]
      rw [hs]
      ring
    · rw [mapGetD_set_ne _ _ _ (fun hk => h hk.symm)]
      simp only [sumKey, List.filter_cons]
      rw [if_neg (by simpa using h)]

theorem accumRows_keys_mem (rows : List Cleaned) :
    ∀ (m : List (Option String × ℚ)) (k : Option String),
      k ∈ mapKeys (accumRows rows m) ↔ k ∈ mapKeys m ∨ ∃ r ∈ rows, identityKey r = k := by
  induction rows with
  | nil => intro m k; simp [accumRows]
  | cons r rs ih =>
    intro m k
    show k ∈ mapKeys (accumRows rs (mapSet m (identityKey r) _)) ↔ _
    rw [ih, mem_mapKeys_set]
    simp only [List.mem_cons]
    constructor
    · rintro ((hm | hm) | ⟨x, hx, hk⟩)
      · exact Or.inl hm
      · exact Or.inr ⟨r, Or.inl rfl, hm.symm⟩
      · exact Or.inr ⟨x, Or.inr hx, hk⟩
    · rintro (hm | ⟨x, hx | hx, hk⟩)
      · exact Or.inl (Or.inl hm)
      · subst hx; exact Or.inl (Or.inr hk.symm)
      · exact Or.inr ⟨x, hx, hk⟩

theorem accumRows_keys_nodup (rows : List Cleaned) :
    ∀ m : List (Option String × ℚ),
      (mapKeys m).Nodup → (mapKeys (accumRows rows m)).Nodup := by
  induction rows with
  | nil => intro m hm; exact hm
  | cons r rs ih =>
    intro m hm
    exact ih _ (nodup_mapKeys_set _ _ _ hm)

theorem mapGetD_of_mem {m : List (Option String × ℚ)} {k : Option String} {v : ℚ}
    (hnd : (mapKeys m).Nodup) (hm : (k, v) ∈ m) : mapGetD m k 0 = v := by
  induction m with
  | nil => simp at hm
  | cons p rest ih =>
    obtain ⟨k2, v2⟩ := p
    simp only [mapKeys, List.map_cons, List.nodup_cons] at hnd
    rcases List.mem_cons.mp hm with hp | hp
    · injection hp with h1 h2
      subst h1
      subst h2
      simp [mapGetD]
    · have hk2 : k2 ≠ k := by
        rintro rfl
        exact hnd.1 (by simpa [mapKeys] using List.mem_map_of_mem Prod.fst hp)
      simp only [mapGetD, if_neg hk2]
      exact ih hnd.2 hp

theorem weeklySummary_keys (E : ℚ) (rows : List Cleaned) :
    (weeklySummary E rows).map WeeklyEntry.key = mapKeys (accumRows rows []) := by
  unfold weeklySummary mapKeys
  rw [List.map_map]
  rfl

theorem weeklySummary_total {rows : List Cleaned} {kv : Option String × ℚ}
    (hkv : kv ∈ accumRows rows []) : kv.2 = sumKey rows kv.1 := by
  have hnd : (mapKeys (accumRows rows [])).Nodup :=
    accumRows_keys_nodup rows [] (by simp [mapKeys])
  have h1 : mapGetD (accumRows rows []) kv.1 0 = kv.2 := mapGetD_of_mem hnd hkv
  have h2 := accumRows_getD rows [] kv.1
  simp only [mapGetD] at h2
  rw [h1] at h2
  simpa using h2

/-- C6: `weeklySummary` produces exactly one entry per distinct identity key
(email if non-empty, else employeeNum), whose `total_hours` is the rounded
sum of `hoursWorked` over the records with that key and whose `delta` is the
rounded difference between that sum and the expected hours; in particular
two records sharing email `a@x.com` with 10 and 15 hours yield the single
entry with `total_hours` 25 and status `WARN` against the default 40. -/
theorem weeklySummary_groups (E : ℚ) (rows : List Cleaned) :
    ((weeklySummary E rows).map WeeklyEntry.key).Nodup ∧
    (∀ k : Option String,
      (∃ e ∈ weeklySummary E rows, e.key = k) ↔ ∃ r ∈ rows, identityKey r = k) ∧
    (∀ e ∈ weeklySummary E rows,
      e.total_hours = round2 (sumKey rows e.key) ∧
      e.expected_hours = E ∧
      e.delta = round2 (sumKey rows e.key - E)) ∧
    weeklySummary 40 [scenA, scenB] = [⟨some "a@x.com", 25, 40, -15, "WARN"⟩] := by
  refine ⟨?_, ?_, ?_, ?_⟩
  · rw [weeklySummary_keys]
    exact accumRows_keys_nodup rows [] (by simp [mapKeys])
  · intro k
    have hm : (∃ e ∈ weeklySummary E rows, e.key = k) ↔
        k ∈ (weeklySummary E rows).map WeeklyEntry.key := by
      rw [List.mem_map]
    rw [hm, weeklySummary_keys, accumRows_keys_mem]
    simp [mapKeys]
  · intro e he
    obtain ⟨kv, hkv, rfl⟩ := List.mem_map.mp he
    have ht := weeklySummary_total hkv
    refine ⟨?_, rfl, ?_⟩ <;> simp only [mkEntry] <;> rw [ht]
  · decide

/-- Witness for `weeklySummary_groups`: the summary of the two-record
scenario has an entry for the shared key. -/
theorem weeklySummary_groups_witness :
    ∃ e ∈ weeklySummary 40 [scenA, scenB], e.key = some "a@x.com" :=
  ((weeklySummary_groups 40 [scenA, scenB]).2.1 (some "a@x.com")).mpr
    ⟨scenA, by simp, by decide⟩

/-- C5: for summaries over accepted normalizer outputs, the status is `FAIL`
exactly when the (rounded) total is 0, `WARN` exactly when it lies strictly
between 0 and the expected hours, and `PASS` exactly when it is at least the
expected hours. -/
theorem weeklySummary_status (E : ℚ) (hE : 0 < E) (rows : List Cleaned)
    (h : ∀ r ∈ rows, (∃ raw : Row, r = clean raw) ∧ validate r = []) :
    ∀ e ∈ weeklySummary E rows,
      (e.status = "FAIL" ↔ e.total_hours = 0) ∧
      (e.status = "WARN" ↔ 0 < e.total_hours ∧ e.total_hours < e.expected_hours) ∧
      (e.status = "PASS" ↔ e.expected_hours ≤ e.total_hours) := by
  have hrows : ∀ r ∈ rows, 0 ≤ r.hoursWorked ∧ IsCents r.hoursWorked := by
    intro r hr
    obtain ⟨⟨raw, hraw⟩, hv⟩ := h r hr
    refine ⟨((validate_nil_iff r).mp hv).2.2.2.1, ?_⟩
    rw [hraw]
    exact clean_hours_isCents raw
  intro e he
  obtain ⟨kv, hkv, rfl⟩ := List.mem_map.mp he
  obtain ⟨k, v⟩ := kv
  have ht : v = sumKey rows k := weeklySummary_total hkv
  have ht0 : 0 ≤ sumKey rows k := by
    apply List.sum_nonneg
    intro x hx
    obtain ⟨r, hr, rfl⟩ := List.mem_map.mp hx
    exact (hrows r (List.mem_filter.mp hr).1).1
  have htc : IsCents (sumKey rows k) := by
    apply isCents_sum
    intro x hx
    obtain ⟨r, hr, rfl⟩ := List.mem_map.mp hx
    exact (hrows r (List.mem_filter.mp hr).1).2
  have hround : round2 (sumKey rows k) = sumKey rows k := round2_eq_self htc
  show ((mkEntry E (k, v)).status = "FAIL" ↔ (mkEntry E (k, v)).total_hours = 0) ∧ _
  simp only [mkEntry, ht, hround]
  by_cases h0 : sumKey rows k = 0
  · rw [if_pos h0, h0]
    exact ⟨iff_of_true rfl rfl,
      iff_of_false (by decide) (by simp),
      iff_of_false (by decide) (not_le.mpr hE)⟩
  · rw [if_neg h0]
    have htpos : 0 < sumKey rows k := lt_of_le_of_ne ht0 (Ne.symm h0)
    by_cases h1 : sumKey rows k < E
    · rw [if_pos ⟨htpos, h1⟩]
      exact ⟨iff_of_false (by decide) h0,
        iff_of_true rfl ⟨htpos, h1⟩,
        iff_of_false (by decide) (not_le.mpr h1)⟩
    · rw [if_neg (fun hc => h1 hc.2)]
      exact ⟨iff_of_false (by decide) h0,
        iff_of_false (by decide) (fun hc => h1 hc.2),
        iff_of_true rfl (not_lt.mp h1)⟩

/-- Witness for `weeklySummary_status` at the spec's boundary inputs: totals
of exactly 40, 39.99 and 0 hours against the default expected 40 classify as
`PASS`, `WARN` and `FAIL` respectively. -/
theorem weeklySummary_status_witness :
    (∀ e ∈ weeklySummary 40 boundaryRows,
      (e.status = "FAIL" ↔ e.total_hours = 0) ∧
      (e.status = "WARN" ↔ 0 < e.total_hours ∧ e.total_hours < e.expected_hours) ∧
      (e.status = "PASS" ↔ e.expected_hours ≤ e.total_hours)) ∧
    (weeklySummary 40 boundaryRows).map (fun e => (e.key, e.total_hours, e.status)) =
      [(some "p@x.com", 40, "PASS"), (some "q@x.com", 3999/100, "WARN"),
        (some "r@x.com", 0, "FAIL")] := by
  refine ⟨weeklySummary_status 40 (by norm_num) boundaryRows ?_, ?_⟩
  · intro r hr
    rw [boundaryRows] at hr
    obtain ⟨raw, hraw, rfl⟩ := List.mem_map.mp hr
    refine ⟨⟨raw, rfl⟩, ?_⟩
    fin_cases hraw <;> decide
  · decide

theorem jsSlice_eq {α : Type} (arr : List α) (c size : ℤ) (hc : 0 ≤ c)
    (hlt : c < (arr.length : ℤ)) (hs : 1 ≤ size) :
    jsSlice arr c (c + size) = (arr.drop c.toNat).take size.toNat := by
  unfold jsSlice jsSliceIdx
  rw [if_neg (not_lt.mpr hc), if_neg (by omega : ¬(c + size < 0))]
  rw [show min c.toNat arr.length = c.toNat from by omega]
  rw [List.drop_take]
  rw [List.take_eq_take]
  simp only [List.length_drop]
  omega

theorem chunksAux_cons {α : Type} (sz : ℕ) (a : α) (t : List α) :
    chunksAux sz (a :: t) =
      ((a :: t).take (sz + 1)) :: chunksAux sz ((a :: t).drop (sz + 1)) := by
  rw [chunksAux]

theorem batch_iterate {α : Type} (arr : List α) (size : ℤ) (hs : 1 ≤ size) :
    ∀ (n : ℕ) (c : ℤ) (o : List (List α)), 0 ≤ c → (arr.length : ℤ) - c ≤ n →
      ((batchStepG arr size)^[n] ⟨c, o⟩).out =
        o ++ chunksAux (size.toNat - 1) (arr.drop c.toNat) := by
  intro n
  induction n with
  | zero =>
    intro c o hc hn
    have hd : arr.length ≤ c.toNat := by omega
    simp [List.drop_eq_nil_of_le hd, chunksAux]
  | succ n ih =>
    intro c o hc hn
    rw [Function.iterate_succ_apply]
    by_cases hlt : c < (arr.length : ℤ)
    · rw [show batchStepG arr size ⟨c, o⟩ = ⟨c + size, o ++ [jsSlice arr c (c + size)]⟩
        from by simp [batchStepG, batchStep, hlt]]
      rw [ih (c + size) _ (by omega) (by omega)]
      rw [jsSlice_eq arr c size hc hlt hs]
      have hne : arr.drop c.toNat ≠ [] := by
        intro hnil
        have := congrArg List.length hnil
        simp only [List.length_drop, List.length_nil] at this
        omega
      obtain ⟨a, t, hat⟩ := List.exists_cons_of_ne_nil hne
      rw [hat, chunksAux_cons]
      have hsz : size.toNat - 1 + 1 = size.toNat := by omega
      rw [hsz, ← hat]
      rw [List.drop_drop]
      rw [show c.toNat + size.toNat = (c + size).toNat from by omega]
      simp

    · rw [show batchStepG arr size ⟨c, o⟩ = ⟨c, o⟩ from by simp [batchStepG, hlt]]
      exact ih c o hc (by omega)

theorem toBatches_eq_chunks {α : Type} (arr : List α) (size : ℤ) (hs : 1 ≤ size) :
    toBatches arr size = chunksAux (size.toNat - 1) arr := by
  unfold toBatches
  rw [batch_iterate arr size hs arr.length 0 [] le_rfl (by omega)]
  simp

theorem chunksAux_props {α : Type} (sz : ℕ) :
    ∀ (n : ℕ) (l : List α), l.length ≤ n →
      (chunksAux sz l).flatten = l ∧
      (∀ b ∈ chunksAux sz l, b.length ≤ sz + 1) ∧
      (∀ b ∈ (chunksAux sz l).dropLast, b.length = sz + 1) := by
  intro n
  induction n with
  | zero =>
    intro l hl
    rw [List.eq_nil_of_length_eq_zero (Nat.le_zero.mp hl)]
    simp [chunksAux]
  | succ n ih =>
    intro l hl
    match l with
    | [] => simp [chunksAux]
    | a :: t =>
      rw [chunksAux_cons]
      have hdl : ((a :: t).drop (sz + 1)).length ≤ n := by
        simp only [List.length_drop, List.length_cons]
        simp only [List.length_cons] at hl
        omega
      obtain ⟨ihj, ihb, ihd⟩ := ih _ hdl
      refine ⟨?_, ?_, ?_⟩
      · rw [List.flatten_cons, ihj]
        exact List.take_append_drop _ _
      · intro b hb
        rcases List.mem_cons.mp hb with rfl | hb
        · simp only [List.length_take]
          omega
        · exact ihb b hb
      · match hr : chunksAux sz ((a :: t).drop (sz + 1)) with
        | [] => simp [hr]
        | c :: cs =>
          have hdne : (a :: t).drop (sz + 1) ≠ [] := by
            intro hnil
            rw [hnil] at hr
            simp [chunksAux] at hr
          have hlen : sz + 1 < (a :: t).length := by
            have := List.length_drop (sz + 1) (a :: t)
            rcases Nat.lt_or_ge (sz + 1) (a :: t).length with h | h
            · exact h
            · exact absurd (List.drop_eq_nil_of_le h) hdne
          intro b hb
          rw [List.dropLast_cons₂] at hb
          rcases List.mem_cons.mp hb with rfl | hb
          · simp only [List.length_take, List.length_cons]
            simp only [List.length_cons] at hlen
            omega
          · rw [hr] at ihd
            exact ihd b hb

/-- C4: for every batch size at least 1, `toBatches` splits the input into
an ordered sequence of contiguous slices whose in-order concatenation is the
input list, every batch has at most `size` elements, and every batch except
possibly the last has exactly `size` elements. -/
theorem toBatches_partition (α : Type) (arr : List α) (size : ℤ) (hs : 1 ≤ size) :
    (toBatches arr size).flatten = arr ∧
    (∀ b ∈ toBatches arr size, b.length ≤ size.toNat) ∧
    (∀ b ∈ (toBatches arr size).dropLast, b.length = size.toNat) := by
  rw [toBatches_eq_chunks arr size hs]
  obtain ⟨h1, h2, h3⟩ := chunksAux_props (size.toNat - 1) arr.length arr le_rfl
  have he : size.toNat - 1 + 1 = size.toNat := by omega
  rw [he] at h2 h3
  exact ⟨h1, h2, h3⟩

/-- Witness for `toBatches_partition`: a five-element list at batch size 2
splits into `[[1, 2], [3, 4], [5]]`-shaped batches. -/
theorem toBatches_partition_witness :
    (toBatches [1, 2, 3, 4, 5] 2).flatten = [1, 2, 3, 4, 5] ∧
    (∀ b ∈ toBatches [1, 2, 3, 4, 5] 2, b.length ≤ (2 : ℤ).toNat) ∧
    (∀ b ∈ (toBatches [1, 2, 3, 4, 5] 2).dropLast, b.length = (2 : ℤ).toNat) :=
  toBatches_partition ℕ [1, 2, 3, 4, 5] 2 (by decide)

theorem batchStepG_lower {α : Type} (arr : List α) (size : ℤ) (hs : 1 ≤ size) :
    ∀ (n : ℕ) (s : BatchState α),
      min (arr.length : ℤ) (s.i + n) ≤ ((batchStepG arr size)^[n] s).i := by
  intro n
  induction n with
  | zero => intro s; simp
  | succ n ih =>
    intro s
    rw [Function.iterate_succ_apply]
    by_cases hlt : s.i < (arr.length : ℤ)
    · have hstep : batchStepG arr size s = ⟨s.i + size, s.out ++ [jsSlice arr s.i (s.i + size)]⟩ := by
        simp [batchStepG, batchStep, hlt]
      rw [hstep]
      have := ih ⟨s.i + size, s.out ++ [jsSlice arr s.i (s.i + size)]⟩
      simp only at this
      push_cast
      omega
    · rw [show batchStepG arr size s = s from by simp [batchStepG, hlt]]
      have := ih s
      push_cast
      push_cast at this
      omega

theorem batchStepG_nonpos {α : Type} (arr : List α) (size : ℤ) (hs : size ≤ 0) :
    ∀ n : ℕ, ((batchStepG arr size)^[n] ⟨0, []⟩).i ≤ 0 := by
  intro n
  induction n with
  | zero => simp
  | succ n ih =>
    rw [Function.iterate_succ_apply']
    set s := (batchStepG arr size)^[n] (⟨0, []⟩ : BatchState α) with hsdef
    by_cases hlt : s.i < (arr.length : ℤ)
    · rw [show batchStepG arr size s = ⟨s.i + size, s.out ++ [jsSlice arr s.i (s.i + size)]⟩
        from by simp [batchStepG, batchStep, hlt]]
      simp only
      omega
    · rw [show batchStepG arr size s = s from by simp [batchStepG, hlt]]
      exact ih

/-- C10: the `toBatches` loop (guard `i < arr.length`, body `i += size`)
exits after at most `arr.length` iterations whenever the batch size is at
least 1; for a batch size at most 0 and a non-empty array the guard still
holds after every number of iterations, so the loop never exits — batch-size
positivity is a genuine precondition, and `BATCH_SIZE` is read from the
environment without a positivity check. -/
theorem toBatches_loop_termination (α : Type) (arr : List α) (size : ℤ) :
    (1 ≤ size →
      ¬(((batchStepG arr size)^[arr.length] ⟨0, []⟩).i < (arr.length : ℤ))) ∧
    (size ≤ 0 → arr ≠ [] →
      ∀ n : ℕ, ((batchStepG arr size)^[n] ⟨0, []⟩).i < (arr.length : ℤ)) := by
  constructor
  · intro hs
    have := batchStepG_lower arr size hs arr.length ⟨0, []⟩
    simp only at this
    omega
  · intro hs hne n
    have h1 := batchStepG_nonpos arr size hs n
    have h2 : 0 < arr.length := List.length_pos.mpr hne
    omega

/-- Witness for `toBatches_loop_termination`: on a three-element list the
loop with size 2 has exited after 3 iterations, while with size 0 it is
still running after 5 iterations. -/
theorem toBatches_loop_termination_witness :
    ¬(((batchStepG [10, 20, 30] 2)^[([10, 20, 30] : List ℕ).length] ⟨0, []⟩).i <
        (([10, 20, 30] : List ℕ).length : ℤ)) ∧
    ((batchStepG [10, 20, 30] 0)^[5] ⟨0, []⟩).i < (([10, 20, 30] : List ℕ).length : ℤ) :=
  ⟨(toBatches_loop_termination ℕ [10, 20, 30] 2).1 (by decide),
    (toBatches_loop_termination ℕ [10, 20, 30] 0).2 (by decide) (by decide) 5⟩

theorem bool_lists_disjoint (t : String) :
    ¬(["true", "1", "yes", "y"].contains t = true ∧
      ["false", "0", "no", "n"].contains t = true) := by
  rintro ⟨h1, h2⟩
  simp only [List.contains_cons, List.contains_nil, Bool.or_eq_true, beq_iff_eq] at h1 h2
  rcases h1 with rfl | rfl | rfl | rfl | h1
  · simp at h2
  · simp at h2
  · simp at h2
  · simp at h2
  · exact Bool.false_ne_true h1

theorem toBool_str_true (s : String) :
    toBool (some (.str s)) = some true ↔
      s ≠ "" ∧ ["true", "1", "yes", "y"].contains (jsToLower (jsTrim s)) = true := by
  simp only [toBool]
  by_cases h0 : s = ""
  · simp [h0]
  · rw [if_neg h0]
    by_cases h1 : ["true", "1", "yes", "y"].contains (jsToLower (jsTrim s)) = true
    · rw [if_pos h1]
      exact iff_of_true rfl ⟨h0, h1⟩
    · rw [if_neg h1]
      refine iff_of_false ?_ (fun hc => h1 hc.2)
      split <;> simp

theorem toBool_str_false (s : String) :
    toBool (some (.str s)) = some false ↔
      s ≠ "" ∧ ["false", "0", "no", "n"].contains (jsToLower (jsTrim s)) = true := by
  simp only [toBool]
  by_cases h0 : s = ""
  · simp [h0]
  · rw [if_neg h0]
    by_cases h1 : ["true", "1", "yes", "y"].contains (jsToLower (jsTrim s)) = true
    · rw [if_pos h1]
      exact iff_of_false (by simp)
        (fun hc => bool_lists_disjoint _ ⟨h1, hc.2⟩)
    · rw [if_neg h1]
      by_cases h2 : ["false", "0", "no", "n"].contains (jsToLower (jsTrim s)) = true
      · rw [if_pos h2]
        exact iff_of_true rfl ⟨h0, h2⟩
      · rw [if_neg h2]
        exact iff_of_false (by simp) (fun hc => h2 hc.2)

/-- C2: `clean` is total (it is a plain function out of every `Row`) and its
output always carries defined `department`, `role`, `hoursWorked` and
`active` fields: `department` is the trimmed input or null (when absent,
null, or empty after trim), `role` is the trimmed input defaulting to
`"Staff"` when absent, null or empty after trim, `hoursWorked` is the
2-decimal rounding of the coerced input defaulting to 0 when absent or
unparsable, and `active` is the coerced boolean defaulting to `true`, where
the case-insensitive string forms true/1/yes/y map to `true` and
false/0/no/n map to `false`. -/
theorem clean_defaults (r : Row) :
    (∀ s, r.department = some (some s) → jsTrim s ≠ "" →
      (clean r).department = some (jsTrim s)) ∧
    ((r.department = none ∨ r.department = some none ∨
        (∃ s, r.department = some (some s) ∧ jsTrim s = "")) →
      (clean r).department = none) ∧
    (∀ s, r.role = some (some s) → jsTrim s ≠ "" → (clean r).role = jsTrim s) ∧
    ((r.role = none ∨ r.role = some none ∨
        (∃ s, r.role = some (some s) ∧ jsTrim s = "")) →
      (clean r).role = "Staff") ∧
    (∀ q, toFloat2 r.hoursWorked = some q → (clean r).hoursWorked = q) ∧
    (toFloat2 r.hoursWorked = none → (clean r).hoursWorked = 0) ∧
    IsCents (clean r).hoursWorked ∧
    (∀ b, toBool r.active = some b → (clean r).active = b) ∧
    (toBool r.active = none → (clean r).active = true) ∧
    (∀ s, toBool (some (.str s)) = some true ↔
      s ≠ "" ∧ ["true", "1", "yes", "y"].contains (jsToLower (jsTrim s)) = true) ∧
    (∀ s, toBool (some (.str s)) = some false ↔
      s ≠ "" ∧ ["false", "0", "no", "n"].contains (jsToLower (jsTrim s)) = true) := by
  refine ⟨?_, ?_, ?_, ?_, ?_, ?_, clean_hours_isCents r, ?_, ?_,
    toBool_str_true, toBool_str_false⟩
  · intro s hd hs
    simp [clean, hd, hs]
  · rintro (hd | hd | ⟨s, hd, hs⟩)
    · simp [clean, hd]
    · simp [clean, hd]
    · simp [clean, hd, hs]
  · intro s hd hs
    simp [clean, hd, hs]
  · rintro (hd | hd | ⟨s, hd, hs⟩)
    · simp [clean, hd]
    · simp [clean, hd]
    · simp [clean, hd, hs]
  · intro q hq
    simp [clean, hq]
  · intro hq
    simp [clean, hq]
  · intro b hb
    simp [clean, hb]
  · intro hb
    simp [clean, hb]

/-- Witness for `clean_defaults`: on `defaultsRow`, the department trims to
`Sales`, the whitespace role defaults to `Staff`, the unparsable hours
default to 0, and the shouted `" YES "` flag coerces to `true`. -/
theorem clean_defaults_witness :
    (clean defaultsRow).department = some "Sales" ∧
    (clean defaultsRow).role = "Staff" ∧
    (clean defaultsRow).hoursWorked = 0 ∧
    toBool (some (.str " YES ")) = some true := by
  refine ⟨?_, ?_, ?_, ?_⟩
  · exact (clean_defaults defaultsRow).1 "  Sales  " rfl (by decide)
  · exact (clean_defaults defaultsRow).2.2.2.1 (Or.inr (Or.inr ⟨"  ", rfl, by decide⟩))
  · exact (clean_defaults defaultsRow).2.2.2.2.2.1 (by decide)
  · exact ((clean_defaults defaultsRow).2.2.2.2.2.2.2.2.2.1 " YES ").mpr
      ⟨by decide, by decide⟩

/-- C8: `clean` maps an empty-after-trim `department` to null, but preserves
empty-after-trim `email`, `employeeNum`, `firstName` and `lastName` as empty
strings (not null or absent), so an empty `firstName`, `lastName`, or `email`
(with no employee number) subsequently fails required-field validation
instead of being normalized away. -/
theorem clean_empty_asymmetry (r : Row) (s : String) :
    (r.department = some (some s) → jsTrim s = "" → (clean r).department = none) ∧
    (r.email = some s → (clean r).email = some (jsToLower (jsTrim s))) ∧
    (r.employeeNum = some s → (clean r).employeeNum = some (jsTrim s)) ∧
    (r.firstName = some s → (clean r).firstName = some (jsTrim s)) ∧
    (r.lastName = some s → (clean r).lastName = some (jsTrim s)) ∧
    (r.firstName = some s → jsTrim s = "" → "Missing firstName." ∈ validate (clean r)) ∧
    (r.lastName = some s → jsTrim s = "" → "Missing lastName." ∈ validate (clean r)) ∧
    (r.email = some s → jsTrim s = "" → r.employeeNum = none →
      "Missing unique key (email or employeeNum)." ∈ validate (clean r)) := by
  refine ⟨?_, ?_, ?_, ?_, ?_, ?_, ?_, ?_⟩
  · intro hd hs
    simp [clean, hd, hs]
  · intro hd
    simp [clean, hd]
  · intro hd
    simp [clean, hd]
  · intro hd
    simp [clean, hd]
  · intro hd
    simp [clean, hd]
  · intro hd hs
    have hf : (clean r).firstName = some "" := by simp [clean, hd, hs]
    simp [validate, strTruthy, hf, List.mem_append]
  · intro hd hs
    have hf : (clean r).lastName = some "" := by simp [clean, hd, hs]
    simp [validate, strTruthy, hf, List.mem_append]
  · intro hd hs hn
    have he : (clean r).email = some "" := by
      simp [clean, hd, hs]
      rfl
    have hn2 : (clean r).employeeNum = none := by simp [clean, hn]
    simp [validate, strTruthy, he, hn2, List.mem_append]

/-- Witness for `clean_empty_asymmetry` on `blankRow`: the whitespace
department becomes null while the whitespace email and names survive as
empty strings and then fail validation. -/
theorem clean_empty_asymmetry_witness :
    (clean blankRow).department = none ∧
    (clean blankRow).email = some "" ∧
    (clean blankRow).firstName = some "" ∧
    "Missing firstName." ∈ validate (clean blankRow) ∧
    "Missing unique key (email or employeeNum)." ∈ validate (clean blankRow) := by
  refine ⟨?_, ?_, ?_, ?_, ?_⟩
  · exact (clean_empty_asymmetry blankRow " ").1 rfl (by decide)
  · exact (clean_empty_asymmetry blankRow "  ").2.1 rfl
  · exact (clean_empty_asymmetry blankRow " ").2.2.2.1 rfl
  · exact (clean_empty_asymmetry blankRow " ").2.2.2.2.2.1 rfl (by decide)
  · exact (clean_empty_asymmetry blankRow "  ").2.2.2.2.2.2.2 rfl (by decide) rfl

theorem length_filter_enumFrom (rows : List Row) :
    ∀ i : ℕ,
      ((List.enumFrom i rows).filter fun p => !(validate (clean p.2)).isEmpty).length =
        (rows.filter fun r => !(validate (clean r)).isEmpty).length := by
  induction rows with
  | nil => intro i; simp
  | cons r rs ih =>
    intro i
    by_cases h : (validate (clean r)).isEmpty <;>
      simp [List.enumFrom, List.filter_cons, h, ih (i + 1)]

theorem length_filter_split (p : Row → Bool) (rows : List Row) :
    (rows.filter p).length + (rows.filter fun r => !p r).length = rows.length := by
  induction rows with
  | nil => simp
  | cons r rs ih =>
    by_cases h : p r <;> simp [List.filter_cons, h] <;> omega

theorem processAux_spec (rows : List Row) : ∀ i : ℕ,
    (processAux i rows).1 =
      (rows.filter fun r => (validate (clean r)).isEmpty).map clean ∧
    (processAux i rows).2 =
      ((List.enumFrom i rows).filter fun p => !(validate (clean p.2)).isEmpty).map
        fun p => ⟨p.1, String.intercalate "; " (validate (clean p.2))⟩ := by
  induction rows with
  | nil => intro i; simp [processAux]
  | cons r rs ih =>
    intro i
    obtain ⟨ih1, ih2⟩ := ih (i + 1)
    by_cases h : (validate (clean r)).isEmpty
    · constructor
      · simp [processAux, h, List.filter_cons, ih1]
      · simp [processAux, h, List.enumFrom, List.filter_cons, ih2]
    · constructor
      · simp [processAux, h, List.filter_cons, ih1]
      · simp [processAux, h, List.enumFrom, List.filter_cons, ih2]

theorem runPipeline_store (bs : ℤ) (E : ℚ) (s0 : List Employee) (rows : List Row) :
    (runPipeline false bs E s0 rows).store =
      (runBatches s0 0 (toBatches (processRows rows).1 bs)).1 := by
  unfold runPipeline
  by_cases hc : (processRows rows).1.isEmpty
  · rw [List.isEmpty_iff] at hc
    simp [hc, toBatches, runBatches]
  · simp only [Bool.not_false, Bool.true_and, hc, Bool.not_false, if_pos rfl]
    match hr : runBatches s0 0 (toBatches (processRows rows).1 bs) with
    | (s1, sc, true) => simp [hr]
    | (s1, sc, false) => simp [hr]

/-- C3: a normalized record with neither a truthy email nor a truthy
employee number always has the missing-unique-key message among its
violations; the clean-and-validate loop accepts a row exactly when its
violation list is empty and otherwise records its original index with the
violations joined by `"; "`; rejections never halt the run — every row is
still processed and the upsert stage receives exactly the accepted rows. -/
theorem validate_missing_key_partition (c : Cleaned) (rows : List Row)
    (h1 : strTruthy c.email = false) (h2 : strTruthy c.employeeNum = false) :
    "Missing unique key (email or employeeNum)." ∈ validate c ∧
    (processRows rows).1 =
      (rows.filter fun r => (validate (clean r)).isEmpty).map clean ∧
    (processRows rows).2 =
      (((List.enumFrom 0 rows).filter fun p => !(validate (clean p.2)).isEmpty).map
        fun p => ⟨p.1, String.intercalate "; " (validate (clean p.2))⟩) ∧
    (processRows rows).1.length + (processRows rows).2.length = rows.length ∧
    (∀ (bs : ℤ) (E : ℚ) (s0 : List Employee),
      (runPipeline false bs E s0 rows).store =
        (runBatches s0 0 (toBatches ((rows.filter fun r =>
          (validate (clean r)).isEmpty).map clean) bs)).1) := by
  obtain ⟨hp1, hp2⟩ := processAux_spec rows 0
  have hq1 : (processRows rows).1 =
      (rows.filter fun r => (validate (clean r)).isEmpty).map clean := hp1
  have hq2 : (processRows rows).2 =
      (((List.enumFrom 0 rows).filter fun p => !(validate (clean p.2)).isEmpty).map
        fun p => ⟨p.1, String.intercalate "; " (validate (clean p.2))⟩) := hp2
  refine ⟨?_, hq1, hq2, ?_, ?_⟩
  · simp [validate, h1, h2, List.mem_append]
  · rw [hq1, hq2]
    rw [List.length_map, List.length_map,
      length_filter_enumFrom rows 0]
    exact length_filter_split _ rows
  · intro bs E s0
    rw [runPipeline_store, hq1]

/-- Witness for `validate_missing_key_partition`: the cleaned empty row
reports the missing-unique-key violation, and of a two-row file with one
invalid row exactly the valid row is accepted while both rows are
processed. -/
theorem validate_missing_key_partition_witness :
    "Missing unique key (email or employeeNum)." ∈ validate (clean {}) ∧
    (processRows [blankRow, okRaw]).1 = [clean okRaw] ∧
    (processRows [blankRow, okRaw]).1.length + (processRows [blankRow, okRaw]).2.length =
      ([blankRow, okRaw] : List Row).length := by
  obtain ⟨w1, w2, _, w4, _⟩ :=
    validate_missing_key_partition (clean {}) [blankRow, okRaw] (by decide) (by decide)
  refine ⟨w1, ?_, w4⟩
  rw [w2]
  decide

theorem exists_of_findIdx? {α : Type} {p : α → Bool} :
    ∀ {l : List α} {j i : ℕ}, List.findIdx? p l j = some i → ∃ x ∈ l, p x = true := by
  intro l
  induction l with
  | nil => intro j i h; simp at h
  | cons a t ih =>
    intro j i h
    rw [List.findIdx?_cons] at h
    by_cases hp : p a = true
    · exact ⟨a, List.mem_cons_self a t, hp⟩
    · rw [if_neg hp] at h
      obtain ⟨x, hx, hpx⟩ := ih h
      exact ⟨x, List.mem_cons_of_mem a hx, hpx⟩

theorem set_getElem?_self {α : Type} :
    ∀ (l : List α) (i : ℕ) (x : α), l[i]? = some x → l.set i x = l := by
  intro l
  induction l with
  | nil => intro i x h; simp at h
  | cons a t ih =>
    intro i x h
    cases i with
    | zero =>
      simp only [List.getElem?_cons_zero, Option.some.injEq] at h
      rw [← h]
      rfl
    | succ n =>
      simp only [List.getElem?_cons_succ] at h
      show a :: t.set n x = a :: t
      rw [ih n x h]

theorem map_email_set {s : List Employee} {i : ℕ} {row row2 : Employee}
    (hget : s[i]? = some row) (heq : row2.email = row.email) :
    (s.set i row2).map Employee.email = s.map Employee.email := by
  rw [List.map_set, heq]
  apply set_getElem?_self
  rw [List.getElem?_map, hget]
  rfl

/-- C7 amended: the upsert is keyed on email whenever the email is truthy
(present and non-empty); when the email is absent (`undefined`) it is keyed
on `employeeNum`, and on that path the `<employeeNum>@placeholder.local`
email is synthesized only when creating a new row while an update leaves
every stored email unchanged.  (As stated over all present emails the claim
fails: a present-but-empty email takes the employeeNum path and overwrites
the stored email with `""`, see the counterexample.) -/
theorem applyOne_keying (s : List Employee) (c : Cleaned) :
    (strTruthy c.email = true →
      ((∀ row ∈ s, row.email ≠ c.email.getD "") →
        ∀ s2, applyOne s c = some s2 →
          s2 = s ++ [⟨c.email.getD "", c.employeeNum, c.firstName.getD "",
            c.lastName.getD "", c.department, c.role, c.hoursWorked, c.active⟩]) ∧
      ((∃ row ∈ s, row.email = c.email.getD "") →
        ∀ s2, applyOne s c = some s2 → s2.length = s.length)) ∧
    (∀ k : String, c.email = none → c.employeeNum = some k →
      ((∀ row ∈ s, row.employeeNum ≠ some k) →
        ∀ s2, applyOne s c = some s2 →
          s2 = s ++ [⟨k ++ "@placeholder.local", some k, c.firstName.getD "",
            c.lastName.getD "", c.department, c.role, c.hoursWorked, c.active⟩]) ∧
      ((∃ row ∈ s, row.employeeNum = some k) →
        ∀ s2, applyOne s c = some s2 →
          s2.length = s.length ∧ s2.map Employee.email = s.map Employee.email)) := by
  constructor
  · intro he
    constructor
    · intro hno s2 happ
      have hf : s.findIdx? (fun row => row.email == c.email.getD "") = none := by
        rw [List.findIdx?_eq_none_iff]
        intro x hx
        simpa using hno x hx
      cases hnum : c.employeeNum with
      | some v =>
        simp only [applyOne, he, if_true, hf, hnum] at happ
        by_cases hfn : (c.firstName.isNone || c.lastName.isNone) = true
        · rw [if_pos hfn] at happ
          exact absurd happ (by simp)
        · rw [if_neg hfn] at happ
          by_cases hconf : numTakenExcept s s.length v = true
          · rw [if_pos hconf] at happ
            exact absurd happ (by simp)
          · rw [if_neg hconf] at happ
            simp only [Option.some.injEq] at happ
            exact happ.symm
      | none =>
        simp only [applyOne, he, if_true, hf, hnum] at happ
        by_cases hfn : (c.firstName.isNone || c.lastName.isNone) = true
        · rw [if_pos hfn] at happ
          exact absurd happ (by simp)
        · rw [if_neg hfn] at happ
          simp only [Option.some.injEq] at happ
          exact happ.symm
    · rintro ⟨row, hrow, hre⟩ s2 happ
      cases hf : s.findIdx? (fun r => r.email == c.email.getD "") with
      | none =>
        rw [List.findIdx?_eq_none_iff] at hf
        have := hf row hrow
        simp [hre] at this
      | some i =>
        simp only [applyOne, he, if_true, hf] at happ
        cases hg : s[i]? with
        | none =>
          rw [hg] at happ
          simp at happ
        | some r0 =>
          cases hnum : c.employeeNum with
          | some v =>
            rw [hg, hnum] at happ
            simp only [] at happ
            by_cases hconf : numTakenExcept s i v = true
            · rw [if_pos hconf] at happ
              exact absurd happ (by simp)
            · rw [if_neg hconf] at happ
              simp only [Option.some.injEq] at happ
              rw [← happ, List.length_set]
          | none =>
            rw [hg, hnum] at happ
            simp only [] at happ
            simp only [Option.some.injEq] at happ
            rw [← happ, List.length_set]
  · intro k hn hk
    have he : strTruthy c.email = false := by rw [hn]; rfl
    constructor
    · intro hno s2 happ
      have hf : s.findIdx? (fun row => row.employeeNum == some k) = none := by
        rw [List.findIdx?_eq_none_iff]
        intro x hx
        simpa using hno x hx
      simp only [applyOne, hn, strTruthy, Bool.false_eq_true, if_false, hk, hf,
        Option.getD_none] at happ
      by_cases hfn : (c.firstName.isNone || c.lastName.isNone) = true
      · rw [if_pos hfn] at happ
        exact absurd happ (by simp)
      · rw [if_neg hfn] at happ
        by_cases hconf : emailTakenExcept s s.length (k ++ "@placeholder.local") = true
        · rw [if_pos hconf] at happ
          exact absurd happ (by simp)
        · rw [if_neg hconf] at happ
          simp only [Option.some.injEq] at happ
          exact happ.symm
    · rintro ⟨row, hrow, hre⟩ s2 happ
      cases hf : s.findIdx? (fun r => r.employeeNum == some k) with
      | none =>
        rw [List.findIdx?_eq_none_iff] at hf
        have := hf row hrow
        simp [hre] at this
      | some i =>
        simp only [applyOne, hn, strTruthy, Bool.false_eq_true, if_false, hk, hf] at happ
        cases hg : s[i]? with
        | none =>
          rw [hg] at happ
          simp at happ
        | some r0 =>
          rw [hg] at happ
          simp only [Option.some.injEq] at happ
          rw [← happ, List.length_set]
          refine ⟨rfl, ?_⟩
          exact map_email_set hg rfl

/-- Witness for `applyOne_keying`: upserting the email-less record
`numOnlyRec` into an empty store creates the one row with the synthesized
placeholder email. -/
theorem applyOne_keying_witness :
    applyOne [] numOnlyRec =
      some ([] ++ [⟨"E9" ++ "@placeholder.local", some "E9", "A", "B", none,
        "Staff", 2, true⟩]) ∧
    validate numOnlyRec = [] := by
  constructor
  · have h := ((applyOne_keying [] numOnlyRec).2 "E9" rfl rfl).1 (by simp)
    have happ : applyOne [] numOnlyRec =
        some [⟨"E9@placeholder.local", some "E9", "A", "B", none, "Staff", 2, true⟩] := by
      decide
    rw [happ]
    exact congrArg some (h _ happ)
  · decide

/-- C9 amended: a dry run always skips the upsert stage (store untouched,
success count 0, no abort) while still producing the summary of the accepted
records; with zero accepted records the non-dry run behaves identically; and
whenever the non-dry run's batches all succeed its summary entries equal the
dry run's.  (Unconditional two-run equality fails when a batch aborts the
non-dry run before the summarizer, see the counterexample.) -/
theorem dry_run_spec (bs : ℤ) (E : ℚ) (s0 : List Employee) (rows : List Row) :
    (runPipeline true bs E s0 rows).store = s0 ∧
    (runPipeline true bs E s0 rows).success = 0 ∧
    (runPipeline true bs E s0 rows).aborted = false ∧
    (runPipeline true bs E s0 rows).entries =
      some (weeklySummary E (processRows rows).1) ∧
    ((processRows rows).1 = [] →
      runPipeline false bs E s0 rows = runPipeline true bs E s0 rows) ∧
    ((runPipeline false bs E s0 rows).aborted = false →
      (runPipeline false bs E s0 rows).entries =
        (runPipeline true bs E s0 rows).entries) := by
  have hdry : runPipeline true bs E s0 rows =
      ⟨s0, 0, false, (processRows rows).2,
        some (weeklySummary E (processRows rows).1)⟩ := by
    unfold runPipeline
    simp
  refine ⟨by rw [hdry], by rw [hdry], by rw [hdry], by rw [hdry], ?_, ?_⟩
  · intro hempty
    unfold runPipeline
    simp [hempty]
  · intro hab
    rw [hdry]
    unfold runPipeline at hab ⊢
    by_cases hc : (processRows rows).1.isEmpty
    · simp [hc]
    · rw [Bool.not_eq_true] at hc
      simp only [hc, Bool.not_false, Bool.true_and, if_pos rfl] at hab ⊢
      match hr : runBatches s0 0 (toBatches (processRows rows).1 bs) with
      | (s1, sc, true) => simp [hr]
      | (s1, sc, false) =>
        rw [hr] at hab
        simp at hab

/-- Witness for `dry_run_spec`: over a one-row input file from an empty
store, the dry and non-dry runs report the same weekly entries. -/
theorem dry_run_spec_witness :
    (runPipeline false 1 40 [] [okRaw]).entries =
      (runPipeline true 1 40 [] [okRaw]).entries :=
  (dry_run_spec 1 40 [] [okRaw]).2.2.2.2.2 (by decide)

end UpdateEmployees
